import Mathlib

/-!
Verification of the compartmental-epidemic simulation engine (compartment.py).

The engine is embedded shallowly over lists of reals.  The external adaptive
ODE integrator (`build_odeint` from `jax.experimental.ode`) is out of scope in
the source and is therefore modelled abstractly: single-instance and batch
integrators are parameters of the embedded drivers, and the few facts claims
need about them (a trajectory row per query time, exact initial state at the
first query time) are stated as explicit contract hypotheses modelled from the
spec's collaborator interface.
-/

namespace Compartment

/-- A state vector: ordered real-valued compartment quantities. -/
abbrev Vec := List ℝ

/-- A trajectory: a sequence of state vectors. -/
abbrev Traj := List Vec

/-- Abstract single-instance integrator (external collaborator `build_odeint`):
initial state, query times, per-call scalar parameters ↦ one state per query time. -/
abbrev Odeint := Vec → List ℝ → List ℝ → Traj

/-- Abstract batch integrator (`build_odeint_batch`'s `odeint_batch` viewed at its
interface): batch of initial states (batch_sz, d), query times, parameters each of
shape (batch_sz,) ↦ trajectory of shape (batch_sz, T, d). -/
abbrev BatchOdeint := List Vec → List ℝ → List Vec → List Traj

/-- An entry of the parameter tuple theta: `np.ndim a == 0` (scalar) or a vector. -/
inductive ThetaEntry where
  | scalar (v : ℝ)
  | vec (vs : List ℝ)

/-- `np.ndim(a) == 0` test used by `CompartmentModel.run` to classify theta. -/
def ThetaEntry.isScalar : ThetaEntry → Bool
  | .scalar _ => true
  | .vec _ => false

/-- The scalar value of an entry, as passed to the scalar integrator by
`_run_static`.  That path is taken only when every entry is a scalar, so the
`vec` case is unreachable there. -/
def ThetaEntry.val : ThetaEntry → ℝ
  | .scalar v => v
  | .vec vs => vs.headD 0

/-- `np.broadcast_to(a, (n,))`: a scalar is repeated; a vector must already have
length n, or length 1 (numpy size-1 broadcasting); otherwise it is a shape error
(`none`). -/
def broadcast_to (a : ThetaEntry) (n : ℕ) : Option (List ℝ) :=
  match a with
  | .scalar v => some (List.replicate n v)
  | .vec vs =>
      if vs.length = n then some vs
      else if vs.length = 1 then some (List.replicate n (vs.headD 0))
      else none

/-- Elementwise fallible map, modelling `tuple(f(a) for a in l)` where each `f a`
may raise (raising = `none`). -/
def traverseOption (f : α → Option β) : List α → Option (List β)
  | [] => some []
  | a :: l => do
      let b ← f a
      let bs ← traverseOption f l
      pure (b :: bs)

/-- The local two-point time grid `t_one_step = np.array([0.0, 1.0])`. -/
def tOneStep : List ℝ := [0, 1]

/-- One unit step of the dynamics: `self.odeint(x0, t_one_step, *theta)[1]`. -/
def stepOnce (ode : Odeint) (x : Vec) (s : List ℝ) : Vec :=
  (ode x tOneStep s).getD 1 []

/-- `jax.lax.scan(advance, x0, theta, T-1)`'s collected outputs: the carry is
replaced by the freshly integrated state at each step and also recorded. -/
def scanAdvance (ode : Odeint) : Vec → List (List ℝ) → Traj
  | _, [] => []
  | x, s :: rest =>
      let x1 := stepOnce ode x s
      x1 :: scanAdvance ode x1 rest

/-- The per-step slices `scan` feeds to `advance`: slice k is the tuple of the
k-th components of the (length-n) parameter vectors. -/
def thetaSlices (theta : List (List ℝ)) (n : ℕ) : List (List ℝ) :=
  (List.range n).map fun k => theta.map fun p => p.getD k 0

/-- `CompartmentModel._run_static`: one integrator call over the time grid
`np.arange(T)` with theta held fixed. -/
def _run_static (ode : Odeint) (T : ℕ) (x0 : Vec) (theta : List ThetaEntry) : Traj :=
  ode x0 ((List.range T).map (fun k : ℕ => (k : ℝ))) (theta.map ThetaEntry.val)

/-- `CompartmentModel._run_time_varying`: broadcast every theta entry to length
T-1, then fold T-1 one-unit-step integrations, and prepend x0 (`np.vstack`). -/
def _run_time_varying (ode : Odeint) (T : ℕ) (x0 : Vec) (theta : List ThetaEntry) :
    Option Traj := do
  let btheta ← traverseOption (fun a => broadcast_to a (T - 1)) theta
  pure (x0 :: scanAdvance ode x0 (thetaSlices btheta (T - 1)))

/-- `CompartmentModel.run`: dispatch on `np.all([np.ndim(a)==0 for a in theta])`. -/
def run (ode : Odeint) (T : ℕ) (x0 : Vec) (theta : List ThetaEntry) : Option Traj :=
  if theta.all ThetaEntry.isScalar then some (_run_static ode T x0 theta)
  else _run_time_varying ode T x0 theta

/-- A batch theta entry: shape `(batch_sz,)` (per-instance constants) or
`(batch_sz, T-1)` (per-instance, per-step values, one row per instance). -/
inductive BThetaEntry where
  | perInstance (vs : List ℝ)
  | perStep (rows : List (List ℝ))

/-- The transpose of a `(B, n)` matrix given as a list of B rows: column k of the
input becomes row k of the output, k < n. -/
def transposeTo (m : List (List ℝ)) (n : ℕ) : List (List ℝ) :=
  (List.range n).map fun k => m.map fun row => row.getD k 0

/-- `expand_and_transpose(a) = np.broadcast_to(a.T, (T-1, batch_sz))`: a
`(batch_sz,)` entry (1-D transpose is the identity) is repeated as n rows; a
`(batch_sz, T-1)` entry is transposed.  Incompatible shapes are a broadcast
error (`none`).  A length-1 per-instance entry broadcasts by numpy's size-1
rule; the degenerate size-1 axes of 2-D entries are not exercised by any claim
and are treated as shape errors. -/
def expand_and_transpose (B n : ℕ) : BThetaEntry → Option (List (List ℝ))
  | .perInstance vs =>
      if vs.length = B then some (List.replicate n vs)
      else if vs.length = 1 then some (List.replicate n (List.replicate B (vs.headD 0)))
      else none
  | .perStep rows =>
      if rows.length = B ∧ rows.all (fun r => r.length = n) then some (transposeTo rows n)
      else none

/-- The per-step slices `scan` feeds to the batch `advance`: slice k is the tuple
of the k-th rows (each of length B) of the `(n, B)`-shaped parameter arrays. -/
def bthetaSlices (theta : List (List (List ℝ))) (n : ℕ) : List (List (List ℝ)) :=
  (List.range n).map fun k => theta.map fun p => p.getD k []

/-- One batch unit step: `self.batch_odeint(x0, t_one_step, *theta)[:,-1,:]`,
i.e. the final time slice of every batch member's two-point trajectory. -/
def stepOnceBatch (bode : BatchOdeint) (x : List Vec) (s : List (List ℝ)) : List Vec :=
  (bode x tOneStep s).map fun traj => traj.getLastD []

/-- `jax.lax.scan(advance, x0, theta, T-1)` for the batch driver: collected
outputs, shape `(T-1, batch_sz, d)`. -/
def scanAdvanceBatch (bode : BatchOdeint) : List Vec → List (List (List ℝ)) → List (List Vec)
  | _, [] => []
  | x, s :: rest =>
      let x1 := stepOnceBatch bode x s
      x1 :: scanAdvanceBatch bode x1 rest

/-- `X.swapaxes(0, 1)` on a `(T-1, B, d)` array: member i's row becomes the list
of its per-step states.  B is passed explicitly because a list of zero steps no
longer carries the batch dimension the array shape would. -/
def swapaxes01 (B : ℕ) (X : List (List Vec)) : List (List Vec) :=
  (List.range B).map fun i => X.map fun xs => xs.getD i []

/-- `CompartmentModel.run_batch`: transpose/broadcast every theta entry to shape
`(T-1, batch_sz)`, fold T-1 batch unit steps, swap the step and batch axes, and
prepend `x0[:,None,:]` along the time axis (`np.concatenate(..., axis=1)`). -/
def run_batch (bode : BatchOdeint) (T : ℕ) (x0 : List Vec) (theta : List BThetaEntry) :
    Option (List Traj) := do
  let B := x0.length
  let btheta ← traverseOption (expand_and_transpose B (T - 1)) theta
  let X := scanAdvanceBatch bode x0 (bthetaSlices btheta (T - 1))
  pure (List.zipWith (fun x0i Xi => x0i :: Xi) x0 (swapaxes01 B X))

/-- `x.reshape(batch_sz, -1)` on a flat list: split into consecutive chunks of
length d (the inferred trailing dimension). -/
def chunks (d : ℕ) (xs : List ℝ) : List (List ℝ) :=
  if h : d = 0 then []
  else
    match xs with
    | [] => []
    | y :: ys => (y :: ys).take d :: chunks d ((y :: ys).drop d)
termination_by xs.length
decreasing_by
  simp only [List.length_drop, List.length_cons]
  omega

/-- `dx_dt_batch` from `build_odeint_batch`: infer `batch_sz = len(args[0])`,
reshape the flat state to `(batch_sz, d)`, `vmap` the per-instance derivative
(row i paired with the i-th scalar of every extra argument, t broadcast), and
ravel the stacked result.  The per-instance derivative takes its extra scalar
parameters as a list. -/
def dx_dt_batch (f : Vec → ℝ → List ℝ → Vec) (x : List ℝ) (t : ℝ)
    (args : List (List ℝ)) : List ℝ :=
  let batch_sz := (args.headD []).length
  let rows := chunks (x.length / batch_sz) x
  (((List.range batch_sz).map fun i =>
      f (rows.getD i []) t (args.map fun a => a.getD i 0))).flatten

/-- `SIRModel.dx_dt`: the SIR equations on state (S, I, R, C), with N = S+I+R
recomputed each call.  A state of the wrong length is an unpacking error. -/
noncomputable def SIRModel.dx_dt (x : Vec) (t beta gamma : ℝ) : Option Vec :=
  match x with
  | [S, I, R, _C] =>
      let N := S + I + R
      some [-beta * S * I / N,
            beta * S * I / N - gamma * I,
            gamma * I,
            beta * S * I / N]
  | _ => none

/-- `SIRModel.R0 = beta / gamma`. -/
noncomputable def SIRModel.R0 (theta : ℝ × ℝ) : ℝ := theta.1 / theta.2

/-- `SIRModel.growth_rate = beta - gamma`. -/
def SIRModel.growth_rate (theta : ℝ × ℝ) : ℝ := theta.1 - theta.2

/-- `SIRModel.seed(N, I) = [N-I, I, 0, I]`. -/
def SIRModel.seed (N I : ℝ) : Vec := [N - I, I, 0, I]

/-- `SEIRModel.dx_dt`: the SEIR equations on state (S, E, I, R, C), with
N = S+E+I+R recomputed each call. -/
noncomputable def SEIRModel.dx_dt (x : Vec) (t beta sigma gamma : ℝ) : Option Vec :=
  match x with
  | [S, E, I, R, _C] =>
      let N := S + E + I + R
      some [-beta * S * I / N,
            beta * S * I / N - sigma * E,
            sigma * E - gamma * I,
            gamma * I,
            sigma * E]
  | _ => none

/-- `SEIRModel.R0 = beta / gamma`. -/
noncomputable def SEIRModel.R0 (theta : ℝ × ℝ × ℝ) : ℝ := theta.1 / theta.2.2

/-- `SEIRModel.growth_rate`: the initial rate of exponential growth,
`(-(sigma + gamma) + np.sqrt((sigma - gamma)**2 + 4 * sigma * beta)) / 2`. -/
noncomputable def SEIRModel.growth_rate (theta : ℝ × ℝ × ℝ) : ℝ :=
  (-(theta.2.1 + theta.2.2) +
      Real.sqrt ((theta.2.1 - theta.2.2) ^ 2 + 4 * theta.2.1 * theta.1)) / 2

/-- `SEIRModel.seed(N, I, E) = [N-E-I, E, I, 0, I]`. -/
def SEIRModel.seed (N I E : ℝ) : Vec := [N - E - I, E, I, 0, I]

/-! ### Spec-side descriptions

Definitions written from the spec's words, to be compared with the embedded
drivers above. -/

/-- Spec side: the state after k manually chained unit-step integrations, step j
being one integrator call over the local grid [0, 1] with the j-th parameter
slice, reseeded with step j-1's final state. -/
def chainState (ode : Odeint) (x0 : Vec) (slices : List (List ℝ)) : ℕ → Vec
  | 0 => x0
  | k + 1 => stepOnce ode (chainState ode x0 slices k) (slices.getD k [])

/-- Spec side: evaluate the per-instance derivative separately on each row of X
with that row's own parameter scalars (and the shared t), then stack and
flatten. -/
def perInstanceDerivs (f : Vec → ℝ → List ℝ → Vec) (X : List Vec) (t : ℝ)
    (args : List (List ℝ)) : List ℝ :=
  (((List.range X.length).map fun i =>
      f (X.getD i []) t (args.map fun a => a.getD i 0))).flatten

/-- Spec side: a batch theta entry transposed/broadcast to shape `(T-1, batch_sz)`:
a per-instance constant vector is repeated across the T-1 steps, a per-instance
per-step matrix is transposed. -/
def batchBroadcast (n : ℕ) : BThetaEntry → List (List ℝ)
  | .perInstance vs => List.replicate n vs
  | .perStep rows => transposeTo rows n

/-- Spec side: a scalar theta entry is broadcast by repetition to a length-n
per-step sequence; a per-step sequence is kept as is. -/
def mixedBroadcast (n : ℕ) : ThetaEntry → List ℝ
  | .scalar v => List.replicate n v
  | .vec vs => vs

/-! ### Concrete integrator instances

Used to evaluate the embedded drivers at concrete inputs.  `constOde` holds the
state constant: it satisfies the collaborator contract (one row per query time,
initial state returned exactly at the first query time). -/

/-- A concrete integrator holding the state constant across the query times. -/
def constOde : Odeint := fun x ts _ => ts.map fun _ => x

/-- A concrete batch integrator holding every member's state constant. -/
def constBode : BatchOdeint := fun xs ts _ => xs.map fun x => ts.map fun _ => x

/-! ### Helper lemmas -/

theorem traverseOption_eq_some_map (f : α → Option β) (g : α → β) :
    ∀ l : List α, (∀ a ∈ l, f a = some (g a)) → traverseOption f l = some (l.map g) := by
  intro l
  induction l with
  | nil => intro _; rfl
  | cons a l ih =>
      intro h
      have ha : f a = some (g a) := h a (List.mem_cons_self a l)
      have hl : traverseOption f l = some (l.map g) :=
        ih fun b hb => h b (List.mem_cons_of_mem a hb)
      simp [traverseOption, ha, hl]

theorem traverseOption_eq_none (f : α → Option β) {a : α} :
    ∀ {l : List α}, a ∈ l → f a = none → traverseOption f l = none := by
  intro l
  induction l with
  | nil => intro h _; cases h
  | cons b l ih =>
      intro hmem ha
      rcases List.mem_cons.mp hmem with h | h
      · subst h; simp [traverseOption, ha]
      · cases hfb : f b with
        | none => simp [traverseOption, hfb]
        | some v => simp [traverseOption, hfb, ih h ha]

theorem scanAdvanceBatch_length (bode : BatchOdeint) :
    ∀ (s : List (List (List ℝ))) (x : List Vec),
      (scanAdvanceBatch bode x s).length = s.length := by
  intro s
  induction s with
  | nil => intro x; rfl
  | cons a s ih => intro x; simp [scanAdvanceBatch, ih]

theorem chainState_cons (ode : Odeint) (x0 : Vec) (s : List ℝ) (rest : List (List ℝ)) :
    ∀ k, chainState ode x0 (s :: rest) (k + 1) = chainState ode (stepOnce ode x0 s) rest k := by
  intro k
  induction k with
  | zero => rfl
  | succ k ih =>
      show stepOnce ode (chainState ode x0 (s :: rest) (k + 1)) ((s :: rest).getD (k + 1) [])
        = stepOnce ode (chainState ode (stepOnce ode x0 s) rest k) (rest.getD k [])
      rw [ih, List.getD_cons_succ]

theorem scanAdvance_eq_chain (ode : Odeint) :
    ∀ (slices : List (List ℝ)) (x0 : Vec),
      scanAdvance ode x0 slices =
        (List.range slices.length).map fun k => chainState ode x0 slices (k + 1) := by
  intro slices
  induction slices with
  | nil => intro x0; rfl
  | cons s rest ih =>
      intro x0
      simp only [scanAdvance, List.length_cons, List.range_succ_eq_map, List.map_cons,
        List.map_map]
      rw [List.cons.injEq]
      refine ⟨rfl, ?_⟩
      · rw [ih (stepOnce ode x0 s)]
        apply List.map_congr_left
        intro k _
        simp only [Function.comp_apply]
        exact (chainState_cons ode x0 s rest (k + 1)).symm

theorem zipWith_cons_map_head :
    ∀ (l1 : List Vec) (l2 : List Traj), l1.length ≤ l2.length →
      (List.zipWith (fun a b => a :: b) l1 l2).map List.head? = l1.map some := by
  intro l1
  induction l1 with
  | nil => intro l2 _; rfl
  | cons a l1 ih =>
      intro l2 h
      cases l2 with
      | nil => simp at h
      | cons b l2 =>
          simp only [List.zipWith_cons_cons, List.map_cons, List.head?_cons, List.cons.injEq,
            true_and]
          exact ih l2 (by simpa using h)

theorem mem_zipWith_cons :
    ∀ {l1 : List Vec} {l2 : List Traj} {r},
      r ∈ List.zipWith (fun a b => a :: b) l1 l2 → ∃ a b, a ∈ l1 ∧ b ∈ l2 ∧ r = a :: b := by
  intro l1
  induction l1 with
  | nil => intro l2 r h; simp at h
  | cons a l1 ih =>
      intro l2 r h
      cases l2 with
      | nil => simp at h
      | cons b l2 =>
          simp only [List.zipWith_cons_cons, List.mem_cons] at h
          rcases h with h | h
          · exact ⟨a, b, List.mem_cons_self _ _, List.mem_cons_self _ _, h⟩
          · obtain ⟨a', b', ha, hb, hr⟩ := ih h
            exact ⟨a', b', List.mem_cons_of_mem _ ha, List.mem_cons_of_mem _ hb, hr⟩

theorem chunks_cons (d : ℕ) (hd : d ≠ 0) (y : ℝ) (ys : List ℝ) :
    chunks d (y :: ys) = (y :: ys).take d :: chunks d ((y :: ys).drop d) := by
  rw [chunks.eq_def]
  simp [hd]

theorem chunks_flatten (d : ℕ) (hd : 0 < d) :
    ∀ X : List (List ℝ), (∀ r ∈ X, r.length = d) → chunks d X.flatten = X := by
  intro X
  induction X with
  | nil => intro _; rw [chunks.eq_def]; simp
  | cons r rest ih =>
      intro h
      have hr : r.length = d := h r (List.mem_cons_self r rest)
      have hrest : ∀ s ∈ rest, s.length = d := fun s hs => h s (List.mem_cons_of_mem r hs)
      cases r with
      | nil =>
          have h0 : d = 0 := by simpa using hr.symm
          omega
      | cons y ys =>
          have hflat : (((y :: ys) :: rest).flatten) = y :: (ys ++ rest.flatten) := by
            simp
          rw [hflat, chunks_cons d hd.ne']
          have htake : (y :: (ys ++ rest.flatten)).take d = y :: ys := by
            have : ((y :: ys) ++ rest.flatten).take d = y :: ys :=
              List.take_left' hr
            simpa using this
          have hdrop : (y :: (ys ++ rest.flatten)).drop d = rest.flatten := by
            have : ((y :: ys) ++ rest.flatten).drop d = rest.flatten :=
              List.drop_left' hr
            simpa using this
          rw [htake, hdrop, ih hrest]

theorem length_flatten_uniform (d : ℕ) :
    ∀ X : List (List ℝ), (∀ r ∈ X, r.length = d) → X.flatten.length = X.length * d := by
  intro X
  induction X with
  | nil => intro _; simp
  | cons r rest ih =>
      intro h
      have hr : r.length = d := h r (List.mem_cons_self r rest)
      have hrest := fun s hs => h s (List.mem_cons_of_mem r hs)
      simp [hr, ih hrest, Nat.succ_mul, Nat.add_comm]

theorem all_isScalar_false_of_vec {theta : List ThetaEntry} {vs : List ℝ}
    (h : ThetaEntry.vec vs ∈ theta) : theta.all ThetaEntry.isScalar = false := by
  by_contra hc
  rw [Bool.not_eq_false] at hc
  have := List.all_eq_true.mp hc _ h
  simp [ThetaEntry.isScalar] at this

/-! ### Claim theorems -/

/-- Claim C3: for T ≥ 1 and an all-scalar theta, run takes the constant-parameter
path and equals a single scalar-integrator call over the time grid of T
consecutive integer time points [0, 1, ..., T-1] with theta held fixed. -/
theorem C3_constant_path (ode : Odeint) (T : ℕ) (x0 : Vec) (vals : List ℝ)
    (hT : 1 ≤ T) :
    run ode T x0 (vals.map ThetaEntry.scalar) =
      some (ode x0 ((List.range T).map (fun k : ℕ => (k : ℝ))) vals) := by
  have hall : (vals.map ThetaEntry.scalar).all ThetaEntry.isScalar = true := by
    simp [List.all_eq_true, ThetaEntry.isScalar]
  rw [run, if_pos hall]
  unfold _run_static
  have hmap : (vals.map ThetaEntry.scalar).map ThetaEntry.val = vals := by
    rw [List.map_map]
    exact List.map_id vals
  rw [hmap]

/-- Witness for C3: the constant-parameter path at T = 2. -/
theorem C3_constant_path_witness :
    1 ≤ 2 ∧ run constOde 2 [(1 : ℝ)] ([(0.5 : ℝ)].map ThetaEntry.scalar) =
      some (constOde [(1 : ℝ)] ((List.range 2).map (fun k : ℕ => (k : ℝ))) [(0.5 : ℝ)]) :=
  ⟨by norm_num, C3_constant_path constOde 2 [1] [0.5] (by norm_num)⟩

/-- Claim C1: for T ≥ 2 and a theta whose entries are per-step sequences of
length T-1, run equals [x0] followed by the T-1 end-of-step states of the
manually chained unit-step integrations, step k using the k-th slice of theta
and reseeded with step k-1's final state. -/
theorem C1_time_varying_chain (ode : Odeint) (T : ℕ) (x0 : Vec) (vss : List (List ℝ))
    (hT : 2 ≤ T) (hne : vss ≠ []) (hlen : ∀ vs ∈ vss, vs.length = T - 1) :
    run ode T x0 (vss.map ThetaEntry.vec) =
      some ((List.range T).map (chainState ode x0 (thetaSlices vss (T - 1)))) := by
  obtain ⟨v, vss', rfl⟩ : ∃ v vss', vss = v :: vss' := by
    cases vss with
    | nil => exact absurd rfl hne
    | cons v vss' => exact ⟨v, vss', rfl⟩
  have hall := all_isScalar_false_of_vec
    (show ThetaEntry.vec v ∈ (v :: vss').map ThetaEntry.vec by simp)
  rw [run, if_neg (by rw [hall]; exact Bool.false_ne_true)]
  have htrav : traverseOption (fun a => broadcast_to a (T - 1)) ((v :: vss').map ThetaEntry.vec)
      = some (((v :: vss').map ThetaEntry.vec).map (mixedBroadcast (T - 1))) := by
    apply traverseOption_eq_some_map
    intro a ha
    obtain ⟨vs, hvs, rfl⟩ := List.mem_map.mp ha
    simp [broadcast_to, mixedBroadcast, hlen vs hvs]
  have hmb : ((v :: vss').map ThetaEntry.vec).map (mixedBroadcast (T - 1)) = v :: vss' := by
    rw [List.map_map]
    exact List.map_id (v :: vss')
  rw [_run_time_varying, htrav, hmb]
  show some _ = _
  obtain ⟨n, rfl⟩ : ∃ n, T = n + 1 := ⟨T - 1, by omega⟩
  have hn1 : n + 1 - 1 = n := rfl
  rw [hn1]
  congr 1
  have hslen : (thetaSlices (v :: vss') n).length = n := by simp [thetaSlices]
  rw [scanAdvance_eq_chain, hslen, List.range_succ_eq_map, List.map_cons, List.map_map]
  rfl

/-- Witness for C1: three time points, one two-step parameter sequence. -/
theorem C1_time_varying_chain_witness :
    2 ≤ 3 ∧ ([[(2 : ℝ), 3]] ≠ ([] : List (List ℝ)))
    ∧ (∀ vs ∈ [[(2 : ℝ), 3]], vs.length = 3 - 1)
    ∧ run constOde 3 [(1 : ℝ)] ([[(2 : ℝ), 3]].map ThetaEntry.vec) =
        some ((List.range 3).map (chainState constOde [(1 : ℝ)] (thetaSlices [[(2 : ℝ), 3]] (3 - 1)))) :=
  ⟨by norm_num, by simp,
    by intro vs hvs; rw [List.mem_singleton] at hvs; subst hvs; rfl,
    C1_time_varying_chain constOde 3 [1] [[2, 3]] (by norm_num) (by simp)
      (by intro vs hvs; rw [List.mem_singleton] at hvs; subst hvs; rfl)⟩

/-- Claim C10: a mixed theta tuple (at least one scalar entry and at least one
per-step entry of length T-1) does not raise: run takes the time-varying path,
broadcasting each scalar entry by repetition to a length-(T-1) per-step
sequence. -/
theorem C10_mixed_theta_broadcast (ode : Odeint) (T : ℕ) (x0 : Vec)
    (theta : List ThetaEntry) (hT : 2 ≤ T)
    (hsc : ∃ v, ThetaEntry.scalar v ∈ theta)
    (hvec : ∃ vs, ThetaEntry.vec vs ∈ theta)
    (hlen : ∀ vs, ThetaEntry.vec vs ∈ theta → vs.length = T - 1) :
    run ode T x0 theta =
      some (x0 :: scanAdvance ode x0
        (thetaSlices (theta.map (mixedBroadcast (T - 1))) (T - 1))) := by
  obtain ⟨vs0, hvs0⟩ := hvec
  have hall := all_isScalar_false_of_vec hvs0
  rw [run, if_neg (by simp [hall])]
  have htrav : traverseOption (fun a => broadcast_to a (T - 1)) theta
      = some (theta.map (mixedBroadcast (T - 1))) := by
    apply traverseOption_eq_some_map
    intro a ha
    cases a with
    | scalar v => rfl
    | vec vs => simp [broadcast_to, mixedBroadcast, hlen vs ha]
  rw [_run_time_varying, htrav]
  rfl

/-- Witness for C10: a scalar entry mixed with a two-step vector entry at T = 3. -/
theorem C10_mixed_theta_broadcast_witness :
    2 ≤ 3 ∧ (∃ v, ThetaEntry.scalar v ∈ [ThetaEntry.scalar 0.5, ThetaEntry.vec [(1 : ℝ), 2]])
    ∧ (∃ vs, ThetaEntry.vec vs ∈ [ThetaEntry.scalar 0.5, ThetaEntry.vec [(1 : ℝ), 2]])
    ∧ (∀ vs, ThetaEntry.vec vs ∈ [ThetaEntry.scalar 0.5, ThetaEntry.vec [(1 : ℝ), 2]] →
        vs.length = 3 - 1)
    ∧ run constOde 3 [(1 : ℝ)] [ThetaEntry.scalar 0.5, ThetaEntry.vec [(1 : ℝ), 2]] =
        some ([(1 : ℝ)] :: scanAdvance constOde [(1 : ℝ)]
          (thetaSlices ([ThetaEntry.scalar 0.5, ThetaEntry.vec [(1 : ℝ), 2]].map
            (mixedBroadcast (3 - 1))) (3 - 1))) :=
  ⟨by norm_num, ⟨0.5, by simp⟩, ⟨[1, 2], by simp⟩,
    by intro vs hvs; simp at hvs; subst hvs; rfl,
    C10_mixed_theta_broadcast constOde 3 [1] _ (by norm_num) ⟨0.5, by simp⟩
      ⟨[1, 2], by simp⟩
      (by intro vs hvs; simp at hvs; subst hvs; rfl)⟩

/-- Counterexample to claim C5 as stated: a theta tuple mixing a scalar and a
per-step entry is not rejected — run returns a trajectory instead of failing. -/
theorem C5_counterexample :
    (run constOde 3 [(1 : ℝ)]
      [ThetaEntry.scalar 0.5, ThetaEntry.vec [(0.1 : ℝ), 0.2]]).isSome = true := by
  rfl

/-- Claim C5 (amended): a per-step theta entry whose length is incompatible with
T-1 (not T-1 and not 1) makes run fail before any integration work — the error
is independent of the integrator — but a theta tuple mixing scalar and per-step
entries is not rejected (it is silently handled by the time-varying path), and
T < 1 is not checked. -/
theorem C5_amended_shape_error (ode : Odeint) (T : ℕ) (x0 : Vec)
    (theta : List ThetaEntry) (vs : List ℝ) (hmem : ThetaEntry.vec vs ∈ theta)
    (h1 : vs.length ≠ T - 1) (h2 : vs.length ≠ 1) :
    run ode T x0 theta = none := by
  have hall := all_isScalar_false_of_vec hmem
  rw [run, if_neg (by simp [hall])]
  have htrav : traverseOption (fun a => broadcast_to a (T - 1)) theta = none := by
    apply traverseOption_eq_none _ hmem
    simp [broadcast_to, h1, h2]
  rw [_run_time_varying, htrav]
  rfl

/-- Witness for the amended C5: a length-3 vector entry at T = 3 (T-1 = 2). -/
theorem C5_amended_shape_error_witness :
    ThetaEntry.vec [(9 : ℝ), 9, 9] ∈ [ThetaEntry.vec [(9 : ℝ), 9, 9]]
    ∧ [(9 : ℝ), 9, 9].length ≠ 3 - 1 ∧ [(9 : ℝ), 9, 9].length ≠ 1
    ∧ run constOde 3 [(1 : ℝ)] [ThetaEntry.vec [(9 : ℝ), 9, 9]] = none :=
  ⟨List.mem_singleton.mpr rfl, by simp, by simp,
    C5_amended_shape_error constOde 3 [1] _ [9, 9, 9] (List.mem_singleton.mpr rfl)
      (by simp) (by simp)⟩

/-- Claim C8: `SEIRModel.growth_rate` returns
`(-(sigma + gamma) + sqrt((sigma - gamma)^2 + 4*sigma*beta)) / 2` for every
parameter tuple, and at (0.5, 0.2, 0.1) equals `(-(0.3) + sqrt(0.01 + 0.4)) / 2`. -/
theorem C8_growth_rate_formula :
    (∀ beta sigma gamma : ℝ, SEIRModel.growth_rate (beta, sigma, gamma) =
      (-(sigma + gamma) + Real.sqrt ((sigma - gamma) ^ 2 + 4 * sigma * beta)) / 2)
    ∧ SEIRModel.growth_rate (0.5, 0.2, 0.1) = (-(0.3 : ℝ) + Real.sqrt (0.01 + 0.4)) / 2 := by
  refine ⟨fun beta sigma gamma => rfl, ?_⟩
  show (-((0.2 : ℝ) + 0.1) + Real.sqrt (((0.2 : ℝ) - 0.1) ^ 2 + 4 * 0.2 * 0.5)) / 2 = _
  norm_num

/-- Claim C9: the non-cumulative compartment derivatives sum to zero exactly:
for `SIRModel.dx_dt`, dS + dI + dR = 0 when N = S+I+R is nonzero, and for
`SEIRModel.dx_dt`, dS + dE + dI + dR = 0 when N = S+E+I+R is nonzero. -/
theorem C9_derivative_sum_zero (S I R c t beta gamma S2 E2 I2 R2 c2 t2 beta2 sigma2 gamma2 : ℝ)
    (hN : S + I + R ≠ 0) (hN2 : S2 + E2 + I2 + R2 ≠ 0) :
    (((SIRModel.dx_dt [S, I, R, c] t beta gamma).getD []).getD 0 0
      + ((SIRModel.dx_dt [S, I, R, c] t beta gamma).getD []).getD 1 0
      + ((SIRModel.dx_dt [S, I, R, c] t beta gamma).getD []).getD 2 0 = 0)
    ∧ (((SEIRModel.dx_dt [S2, E2, I2, R2, c2] t2 beta2 sigma2 gamma2).getD []).getD 0 0
      + ((SEIRModel.dx_dt [S2, E2, I2, R2, c2] t2 beta2 sigma2 gamma2).getD []).getD 1 0
      + ((SEIRModel.dx_dt [S2, E2, I2, R2, c2] t2 beta2 sigma2 gamma2).getD []).getD 2 0
      + ((SEIRModel.dx_dt [S2, E2, I2, R2, c2] t2 beta2 sigma2 gamma2).getD []).getD 3 0 = 0) := by
  constructor
  · simp only [SIRModel.dx_dt, Option.getD_some, List.getD_cons_zero, List.getD_cons_succ]
    ring
  · simp only [SEIRModel.dx_dt, Option.getD_some, List.getD_cons_zero, List.getD_cons_succ]
    ring

/-- Witness for C9 at a concrete state and parameters. -/
theorem C9_derivative_sum_zero_witness :
    ((900 : ℝ) + 90 + 10 ≠ 0) ∧ ((800 : ℝ) + 100 + 60 + 40 ≠ 0)
    ∧ ((((SIRModel.dx_dt [900, 90, 10, 90] 0 0.3 0.1).getD []).getD 0 0
      + ((SIRModel.dx_dt [900, 90, 10, 90] 0 0.3 0.1).getD []).getD 1 0
      + ((SIRModel.dx_dt [900, 90, 10, 90] 0 0.3 0.1).getD []).getD 2 0 = 0)
    ∧ (((SEIRModel.dx_dt [800, 100, 60, 40, 60] 0 0.5 0.2 0.1).getD []).getD 0 0
      + ((SEIRModel.dx_dt [800, 100, 60, 40, 60] 0 0.5 0.2 0.1).getD []).getD 1 0
      + ((SEIRModel.dx_dt [800, 100, 60, 40, 60] 0 0.5 0.2 0.1).getD []).getD 2 0
      + ((SEIRModel.dx_dt [800, 100, 60, 40, 60] 0 0.5 0.2 0.1).getD []).getD 3 0 = 0)) :=
  ⟨by norm_num, by norm_num,
    C9_derivative_sum_zero 900 90 10 90 0 0.3 0.1 800 100 60 40 60 0 0.5 0.2 0.1
      (by norm_num) (by norm_num)⟩

/-- Claim C2: the vectorized derivative `dx_dt_batch` applied to the flattened
batch state is entry-by-entry identical to evaluating the per-instance
derivative separately on each row of X with that row's own parameter scalars
(and the shared t), then stacking and flattening. -/
theorem C2_vectorized_derivative (f : Vec → ℝ → List ℝ → Vec) (X : List Vec) (t : ℝ)
    (args : List (List ℝ)) (d : ℕ)
    (hargs : args ≠ []) (hlen : ∀ a ∈ args, a.length = X.length)
    (hrows : ∀ r ∈ X, r.length = d) (hd : 0 < d) (hX : X ≠ []) :
    dx_dt_batch f X.flatten t args = perInstanceDerivs f X t args := by
  have hXpos : 0 < X.length := List.length_pos.mpr hX
  obtain ⟨a0, args', rfl⟩ : ∃ a0 args', args = a0 :: args' := by
    cases args with
    | nil => exact absurd rfl hargs
    | cons a0 args' => exact ⟨a0, args', rfl⟩
  have ha0 : a0.length = X.length := hlen a0 (List.mem_cons_self a0 args')
  have hflat : X.flatten.length = X.length * d := length_flatten_uniform d X hrows
  have hdiv : X.flatten.length / X.length = d := by
    rw [hflat]
    exact Nat.mul_div_cancel_left d hXpos
  have hch : chunks d X.flatten = X := chunks_flatten d hd X hrows
  simp only [dx_dt_batch, perInstanceDerivs, List.headD_cons, ha0, hdiv, hch]

/-- Witness for C2 at a two-instance batch with one extra parameter. -/
theorem C2_vectorized_derivative_witness :
    ([[(5 : ℝ), 6]] ≠ ([] : List (List ℝ)))
    ∧ (∀ a ∈ [[(5 : ℝ), 6]], a.length = ([[(1 : ℝ)], [(2 : ℝ)]] : List Vec).length)
    ∧ (∀ r ∈ ([[(1 : ℝ)], [(2 : ℝ)]] : List Vec), r.length = 1)
    ∧ 0 < 1 ∧ (([[(1 : ℝ)], [(2 : ℝ)]] : List Vec) ≠ [])
    ∧ dx_dt_batch (fun x _ p => [x.getD 0 0 * p.getD 0 0]) ([[(1 : ℝ)], [(2 : ℝ)]] : List Vec).flatten 0 [[(5 : ℝ), 6]]
      = perInstanceDerivs (fun x _ p => [x.getD 0 0 * p.getD 0 0]) [[(1 : ℝ)], [(2 : ℝ)]] 0 [[(5 : ℝ), 6]] :=
  ⟨by simp, by intro a ha; rw [List.mem_singleton] at ha; subst ha; rfl,
    by
      intro r hr
      simp at hr
      rcases hr with rfl | rfl <;> rfl,
    by norm_num, by simp,
    C2_vectorized_derivative (fun x _ p => [x.getD 0 0 * p.getD 0 0]) [[1], [2]] 0
      [[5, 6]] 1 (by simp)
      (by intro a ha; rw [List.mem_singleton] at ha; subst ha; rfl)
      (by
        intro r hr
        simp at hr
        rcases hr with rfl | rfl <;> rfl)
      (by norm_num) (by simp)⟩

/-- Claim C4: run_batch always uses the stepwise fold: every theta entry is
transposed/broadcast to shape (T-1, batch_sz), T-1 batch-integrator unit steps
over the local grid [0, 1] are folded carrying the batch state forward, and the
output is x0 concatenated along the time axis with the folded states reordered
to (batch_sz, T-1, d), yielding batch_sz rows of T states each. -/
theorem C4_run_batch_stepwise_fold (bode : BatchOdeint) (T : ℕ) (x0 : List Vec)
    (theta : List BThetaEntry) (hT : 1 ≤ T)
    (hshape : ∀ a ∈ theta,
      (∀ vs, a = BThetaEntry.perInstance vs → vs.length = x0.length)
      ∧ (∀ rows, a = BThetaEntry.perStep rows →
          rows.length = x0.length ∧ ∀ r ∈ rows, r.length = T - 1)) :
    run_batch bode T x0 theta =
      some (List.zipWith (fun x0i Xi => x0i :: Xi) x0
        (swapaxes01 x0.length
          (scanAdvanceBatch bode x0
            (bthetaSlices (theta.map (batchBroadcast (T - 1))) (T - 1)))))
    ∧ ∀ res, run_batch bode T x0 theta = some res →
        res.length = x0.length ∧ ∀ r ∈ res, r.length = T := by
  have htrav : traverseOption (expand_and_transpose x0.length (T - 1)) theta
      = some (theta.map (batchBroadcast (T - 1))) := by
    apply traverseOption_eq_some_map
    intro a ha
    cases a with
    | perInstance vs =>
        have hv := (hshape _ ha).1 vs rfl
        simp [expand_and_transpose, batchBroadcast, hv]
    | perStep rows =>
        obtain ⟨hr1, hr2⟩ := (hshape _ ha).2 rows rfl
        have hall : (rows.all fun r => r.length = T - 1) = true := by
          simp only [List.all_eq_true, decide_eq_true_eq]
          exact hr2
        simp [expand_and_transpose, batchBroadcast, hr1, hall]
  have heq : run_batch bode T x0 theta =
      some (List.zipWith (fun x0i Xi => x0i :: Xi) x0
        (swapaxes01 x0.length
          (scanAdvanceBatch bode x0
            (bthetaSlices (theta.map (batchBroadcast (T - 1))) (T - 1))))) := by
    show (do
      let btheta ← traverseOption (expand_and_transpose x0.length (T - 1)) theta
      let X : List (List Vec) := scanAdvanceBatch bode x0 (bthetaSlices btheta (T - 1))
      pure (List.zipWith (fun x0i Xi => x0i :: Xi) x0 (swapaxes01 x0.length X))) = _
    rw [htrav]
    rfl
  refine ⟨heq, ?_⟩
  intro res hres
  rw [heq] at hres
  obtain rfl := Option.some.inj hres
  constructor
  · rw [List.length_zipWith]
    simp [swapaxes01]
  · intro r hr
    obtain ⟨a, b, _, hb, rfl⟩ := mem_zipWith_cons hr
    simp only [swapaxes01, List.mem_map, List.mem_range] at hb
    obtain ⟨i, _, rfl⟩ := hb
    have hXl : (scanAdvanceBatch bode x0
        (bthetaSlices (theta.map (batchBroadcast (T - 1))) (T - 1))).length = T - 1 := by
      rw [scanAdvanceBatch_length]
      simp [bthetaSlices]
    simp only [List.length_cons, List.length_map, hXl]
    omega

/-- Witness for C4: one batch member, a constant entry and a per-step entry, T = 2. -/
theorem C4_run_batch_stepwise_fold_witness :
    1 ≤ 2
    ∧ (∀ a ∈ [BThetaEntry.perInstance [(0.5 : ℝ)], BThetaEntry.perStep [[(0.7 : ℝ)]]],
      (∀ vs, a = BThetaEntry.perInstance vs → vs.length = ([[(2 : ℝ)]] : List Vec).length)
      ∧ (∀ rows, a = BThetaEntry.perStep rows →
          rows.length = ([[(2 : ℝ)]] : List Vec).length ∧ ∀ r ∈ rows, r.length = 2 - 1))
    ∧ (run_batch constBode 2 [[(2 : ℝ)]]
        [BThetaEntry.perInstance [(0.5 : ℝ)], BThetaEntry.perStep [[(0.7 : ℝ)]]] =
      some (List.zipWith (fun x0i Xi => x0i :: Xi) [[(2 : ℝ)]]
        (swapaxes01 ([[(2 : ℝ)]] : List Vec).length
          (scanAdvanceBatch constBode [[(2 : ℝ)]]
            (bthetaSlices ([BThetaEntry.perInstance [(0.5 : ℝ)],
              BThetaEntry.perStep [[(0.7 : ℝ)]]].map (batchBroadcast (2 - 1))) (2 - 1)))))
    ∧ ∀ res, run_batch constBode 2 [[(2 : ℝ)]]
        [BThetaEntry.perInstance [(0.5 : ℝ)], BThetaEntry.perStep [[(0.7 : ℝ)]]] = some res →
        res.length = ([[(2 : ℝ)]] : List Vec).length ∧ ∀ r ∈ res, r.length = 2) :=
  ⟨by norm_num,
    by
      intro a ha
      simp at ha
      rcases ha with rfl | rfl
      · refine ⟨fun vs h => ?_, fun rows h => by simp at h⟩
        injection h with h
        subst h; rfl
      · refine ⟨fun vs h => by simp at h, fun rows h => ?_⟩
        injection h with h
        subst h
        refine ⟨rfl, ?_⟩
        intro r hr
        rw [List.mem_singleton] at hr
        subst hr; rfl,
    C4_run_batch_stepwise_fold constBode 2 [[2]]
      [BThetaEntry.perInstance [0.5], BThetaEntry.perStep [[0.7]]] (by norm_num)
      (by
        intro a ha
        simp at ha
        rcases ha with rfl | rfl
        · refine ⟨fun vs h => ?_, fun rows h => by simp at h⟩
          injection h with h
          subst h; rfl
        · refine ⟨fun vs h => by simp at h, fun rows h => ?_⟩
          injection h with h
          subst h
          refine ⟨rfl, ?_⟩
          intro r hr
          rw [List.mem_singleton] at hr
          subst hr; rfl)⟩

/-- Claim C6: every produced trajectory's first state equals the supplied
initial state exactly: for run on either path (under the integrator contract,
modelled from the spec, that the state reported at the first query time is
exactly the initial state) and for every batch member of run_batch. -/
theorem C6_first_state_is_x0 (ode : Odeint) (bode : BatchOdeint)
    (hfirst : ∀ x ts p, ts ≠ [] → (ode x ts p).head? = some x)
    (T : ℕ) (hT : 1 ≤ T) (x0 : Vec) (bx0 : List Vec)
    (theta : List ThetaEntry) (btheta : List BThetaEntry) (traj : Traj) (res : List Traj)
    (h1 : run ode T x0 theta = some traj)
    (h2 : run_batch bode T bx0 btheta = some res) :
    traj.head? = some x0 ∧ res.map List.head? = bx0.map some := by
  constructor
  · rw [run] at h1
    by_cases hsc : theta.all ThetaEntry.isScalar = true
    · rw [if_pos hsc] at h1
      obtain rfl := Option.some.inj h1
      have hts : ((List.range T).map (fun k : ℕ => (k : ℝ))) ≠ [] := by
        have hl : ((List.range T).map (fun k : ℕ => (k : ℝ))).length = T := by
          rw [List.length_map, List.length_range]
        intro hc
        rw [hc] at hl
        simp at hl
        omega
      exact hfirst x0 _ _ hts
    · rw [if_neg hsc] at h1
      rw [_run_time_varying] at h1
      cases htr : traverseOption (fun a => broadcast_to a (T - 1)) theta with
      | none => rw [htr] at h1; cases h1
      | some b =>
          rw [htr] at h1
          obtain rfl := Option.some.inj h1
          rfl
  · replace h2 : (do
        let btheta' ← traverseOption (expand_and_transpose bx0.length (T - 1)) btheta
        let X : List (List Vec) := scanAdvanceBatch bode bx0 (bthetaSlices btheta' (T - 1))
        pure (List.zipWith (fun x0i Xi => x0i :: Xi) bx0 (swapaxes01 bx0.length X)))
          = some res := h2
    cases htr : traverseOption (expand_and_transpose bx0.length (T - 1)) btheta with
    | none => rw [htr] at h2; cases h2
    | some b =>
        rw [htr] at h2
        obtain rfl := Option.some.inj h2
        apply zipWith_cons_map_head
        simp [swapaxes01]

/-- Witness for C6: the constant integrators, a scalar-theta run and a
one-member batch at T = 2. -/
theorem C6_first_state_is_x0_witness :
    (∀ x ts p, ts ≠ [] → (constOde x ts p).head? = some x)
    ∧ 1 ≤ 2
    ∧ run constOde 2 [(1 : ℝ)] [ThetaEntry.scalar 0.3] = some [[(1 : ℝ)], [(1 : ℝ)]]
    ∧ run_batch constBode 2 [[(2 : ℝ)]] [BThetaEntry.perInstance [(0.5 : ℝ)]]
        = some [[[(2 : ℝ)], [(2 : ℝ)]]]
    ∧ (([[(1 : ℝ)], [(1 : ℝ)]] : Traj).head? = some [(1 : ℝ)]
        ∧ ([[[(2 : ℝ)], [(2 : ℝ)]]] : List Traj).map List.head? = [[(2 : ℝ)]].map some) :=
  ⟨by
      intro x ts p h
      cases ts with
      | nil => exact absurd rfl h
      | cons a ts => rfl,
    by norm_num, by rfl, by rfl,
    C6_first_state_is_x0 constOde constBode
      (by
        intro x ts p h
        cases ts with
        | nil => exact absurd rfl h
        | cons a ts => rfl)
      2 (by norm_num) [1] [[2]] [ThetaEntry.scalar 0.3] [BThetaEntry.perInstance [0.5]]
      [[1], [1]] [[[2], [2]]] (by rfl) (by rfl)⟩

/-- Claim C7: run with T = 1 and a parameter tuple valid for that horizon
(every entry a scalar or a length-0 per-step sequence, per the data model)
returns exactly the one-row trajectory [x0]: the time-varying path folds zero
steps, and the constant path's single-point grid [0] yields, by the integrator
contract (one state per query time, the first exactly x0), just [x0] —
whichever integrator is supplied. -/
theorem C7_horizon_one (ode : Odeint)
    (hlen : ∀ x ts p, (ode x ts p).length = ts.length)
    (hfirst : ∀ x ts p, ts ≠ [] → (ode x ts p).head? = some x)
    (x0 : Vec) (theta : List ThetaEntry)
    (htheta : ∀ a ∈ theta, a.isScalar = true ∨ a = ThetaEntry.vec []) :
    run ode 1 x0 theta = some [x0] := by
  rw [run]
  by_cases hsc : theta.all ThetaEntry.isScalar = true
  · rw [if_pos hsc]
    have hg : ((List.range 1).map (fun k : ℕ => (k : ℝ))) = [(0 : ℝ)] := by
      rw [List.range_succ_eq_map, List.range_zero, List.map_nil, List.map_cons,
        List.map_nil, Nat.cast_zero]
    rw [_run_static, hg]
    have hl := hlen x0 [(0 : ℝ)] (theta.map ThetaEntry.val)
    have hh := hfirst x0 [(0 : ℝ)] (theta.map ThetaEntry.val) (by simp)
    cases hode : ode x0 [(0 : ℝ)] (theta.map ThetaEntry.val) with
    | nil => rw [hode] at hl; simp at hl
    | cons a l =>
        rw [hode] at hl hh
        simp only [List.head?_cons, Option.some.injEq] at hh
        have hl' : l.length = 0 := by
          have hl2 : l.length + 1 = 1 := by simpa using hl
          omega
        have hlnil : l = [] := List.length_eq_zero.mp hl'
        rw [hh, hlnil]
  · rw [if_neg hsc]
    have htrav : traverseOption (fun a => broadcast_to a (1 - 1)) theta
        = some (theta.map fun _ => ([] : List ℝ)) := by
      apply traverseOption_eq_some_map
      intro a ha
      rcases htheta a ha with h | h
      · cases a with
        | scalar v => rfl
        | vec vs => simp [ThetaEntry.isScalar] at h
      · subst h
        rfl
    rw [_run_time_varying, htrav]
    rfl

/-- Witness for C7: a scalar entry and an empty per-step entry at T = 1. -/
theorem C7_horizon_one_witness :
    (∀ x ts p, (constOde x ts p).length = ts.length)
    ∧ (∀ x ts p, ts ≠ [] → (constOde x ts p).head? = some x)
    ∧ (∀ a ∈ [ThetaEntry.scalar 0.5, ThetaEntry.vec []],
        a.isScalar = true ∨ a = ThetaEntry.vec [])
    ∧ run constOde 1 [(1 : ℝ)] [ThetaEntry.scalar 0.5, ThetaEntry.vec []] = some [[(1 : ℝ)]] :=
  ⟨by intro x ts p; simp [constOde],
    by
      intro x ts p h
      cases ts with
      | nil => exact absurd rfl h
      | cons a ts => rfl,
    by
      intro a ha
      simp at ha
      rcases ha with rfl | rfl
      · exact Or.inl rfl
      · exact Or.inr rfl,
    C7_horizon_one constOde (by intro x ts p; simp [constOde])
      (by
        intro x ts p h
        cases ts with
        | nil => exact absurd rfl h
        | cons a ts => rfl)
      [1] [ThetaEntry.scalar 0.5, ThetaEntry.vec []]
      (by
        intro a ha
        simp at ha
        rcases ha with rfl | rfl
        · exact Or.inl rfl
        · exact Or.inr rfl)⟩

end Compartment
